import Mathlib

/-!
Verification of the lofi-camera frame-acquisition pipeline.

Shallow embedding of the three Python sources:
  * `Agfa35/QuickDownload/GetImages.py`  (batch downloader, 7x5, clamp to 65535)
  * `Kodak12/QuickDownload/GetImages.py` (batch downloader, 4x3, clamp to 255)
  * `Agfa35/LiveStream/livestream.py`    (streaming viewer, 7x5, `value // 256`
    then clamp to 255, exposure averaging)

Lines of serial text are modelled as `List Char`; the numeric parser mirrors
CPython `int(str)` on ASCII decimal literals (optional surrounding
whitespace, optional single sign, nonempty digit run; the exotic accepted
forms — underscore separators, non-ASCII digits — are not modelled, and no
claim depends on them).  Pixels are `Nat` (the code stores them in
`np.uint8` / plain nonnegative ints after clamping).
-/

namespace LofiCamera

/-- ASCII whitespace stripped by Python `str.strip`. -/
def isSpaceCh (c : Char) : Bool :=
  c = ' ' || c = '\t' || c = '\n' || c = '\r' || c = '\x0b' || c = '\x0c'

/-- `str.strip()`: drop whitespace from both ends. -/
def pyStrip (cs : List Char) : List Char :=
  ((cs.dropWhile isSpaceCh).reverse.dropWhile isSpaceCh).reverse

/-- Value of a nonempty all-digit run, else `none`. -/
def digitsVal (cs : List Char) : Option Nat :=
  if !cs.isEmpty && cs.all Char.isDigit then
    some (cs.foldl (fun n c => n * 10 + (c.toNat - 48)) 0)
  else none

/-- CPython `int(s)` on an already-stripped string: optional sign, digits. -/
def pyIntCore : List Char → Option Int
  | [] => none
  | c :: rest =>
    if c = '+' then (digitsVal rest).map Int.ofNat
    else if c = '-' then (digitsVal rest).map (fun n => -Int.ofNat n)
    else (digitsVal (c :: rest)).map Int.ofNat

/-- CPython `int(s.strip())` as used by both decoders. -/
def pyInt (cs : List Char) : Option Int :=
  pyIntCore (pyStrip cs)

/-- Python `s.split(',')`: never empty, `""` splits to `[""]`. -/
def splitComma : List Char → List (List Char)
  | [] => [[]]
  | c :: cs =>
    if c = ',' then [] :: splitComma cs
    else
      match splitComma cs with
      | [] => [[c]]
      | t :: ts => (c :: t) :: ts

/-- Inverse of `splitComma` on comma-free tokens: join with commas. -/
def joinComma : List (List Char) → List Char
  | [] => []
  | [t] => t
  | t :: ts => t ++ ',' :: joinComma ts

/-- Python `s[n:]`/`s[:-n]` tail trim: drop the last `n` characters. -/
def dropLastN (n : Nat) (l : List Char) : List Char :=
  (l.reverse.drop n).reverse

/-- Batch clamp `max(0, min(maxv, value))` (GetImages.py line 92),
converted to the nonnegative pixel range. -/
def clampPix (maxv : Nat) (v : Int) : Nat :=
  (max 0 (min (maxv : Int) v)).toNat

/-- Streaming transform `max(0, min(255, value // 256))` (livestream.py
line 161); Python `//` is floor division, i.e. `Int.fdiv`. -/
def streamPix (v : Int) : Nat :=
  (max 0 (min 255 (Int.fdiv v 256))).toNat

/-- Batch token loop (GetImages.py lines 87-94): skip fields that are empty
after strip; a field that fails `int(...)` aborts the whole record
(`return None`); otherwise clamp and append. -/
def parseTokens (f : Int → Nat) : List (List Char) → Option (List Nat)
  | [] => some []
  | t :: ts =>
    if (pyStrip t).isEmpty then parseTokens f ts
    else
      match pyIntCore (pyStrip t) with
      | none => none
      | some v => (parseTokens f ts).map (fun l => f v :: l)

/-- Streaming token loop (livestream.py lines 156-163): skip fields that are
empty after strip; a field that fails `int(...)` is skipped (`continue`),
not fatal; otherwise transform and append. -/
def parseTokensSkip (f : Int → Nat) : List (List Char) → List Nat
  | [] => []
  | t :: ts =>
    if (pyStrip t).isEmpty then parseTokensSkip f ts
    else
      match pyIntCore (pyStrip t) with
      | none => parseTokensSkip f ts
      | some v => f v :: parseTokensSkip f ts

/-- The comma fields of a batch line: `data_line[6:-6].split(',')`. -/
def imageFields (cs : List Char) : List (List Char) :=
  splitComma (dropLastN 6 (cs.drop 6))

/-- The comma fields of a streaming line: `line[7:-7].split(',')`. -/
def streamFields (cs : List Char) : List (List Char) :=
  splitComma (dropLastN 7 (cs.drop 7))

/-- `parse_image_data` (GetImages.py lines 81-107).  `maxv` is 65535 for the
Agfa35 profile and 255 for the Kodak12 profile; `count` is
`pixels_per_image`.  All failure paths return `none` (the Python returns
`None`; the surrounding `try` re-raises nothing). -/
def parse_image_data (maxv count : Nat) (cs : List Char) : Option (List Nat) :=
  if "IMAGE,".toList.isPrefixOf cs && ",IMAGE".toList.isSuffixOf cs then
    match parseTokens (clampPix maxv) (imageFields cs) with
    | none => none
    | some pixels => if pixels.length = count then some pixels else none
  else none

/-- The record-decoding slice of `stream_loop` (livestream.py lines
151-165): framing check, raw split-count check, token loop, parsed-count
check.  `some pixels` means a frame is handed to the exposure buffer;
`none` means the line produced no pixel data at all. -/
def stream_decode (count : Nat) (cs : List Char) : Option (List Nat) :=
  if "STREAM,".toList.isPrefixOf cs && ",STREAM".toList.isSuffixOf cs then
    let fields := streamFields cs
    if fields.length = count then
      let pixels := parseTokensSkip streamPix fields
      if pixels.length = count then some pixels else none
    else none
  else none

/-- Build a streaming wire line from raw comma-free tokens. -/
def streamLine (toks : List (List Char)) : List Char :=
  "STREAM,".toList ++ joinComma toks ++ ",STREAM".toList

/-- Build a batch wire line from raw comma-free tokens. -/
def imageLine (toks : List (List Char)) : List Char :=
  "IMAGE,".toList ++ joinComma toks ++ ",IMAGE".toList

/-- `np.reshape(height, width)` of a flat row-major buffer: row `r` is the
`width` entries starting at `r * width`. -/
def reshapeRows (h w : Nat) (px : List Nat) : List (List Nat) :=
  (List.range h).map (fun r => (px.drop (r * w)).take w)

/-- Number of fields of a line that are nonempty after strip and parse as
integers — the "parsed token count" of a record. -/
def parsedCount (fs : List (List Char)) : Nat :=
  (fs.filterMap pyInt).length

/-- A field list contains a malformed token: nonempty after strip, yet not
an integer. -/
def fieldsBad (fs : List (List Char)) : Prop :=
  ∃ t ∈ fs, ¬(pyStrip t).isEmpty ∧ pyInt t = none

instance (fs : List (List Char)) : Decidable (fieldsBad fs) := by
  unfold fieldsBad; infer_instance

/-! ### Exposure accumulation (livestream.py lines 167-171)

`np.mean(self.exposure_buffer, axis=0).astype(np.uint8)` sums the buffered
frames and divides by their number in float64, then converts with C-style
truncation toward zero.  All pixels are in 0..255 and the buffer holds at
most `max_exposure_frames = 20` frames, so the float64 sum (≤ 5100) is
exact, the quotient is within an exact half-ulp of the rational mean and
never on the far side of an integer (the mean's denominator is ≤ 20, so a
non-integral mean is ≥ 1/20 away from any integer), and no uint8 wrap can
occur.  The conversion therefore computes exactly `sum / count` in natural
division, which is how it is embedded here. -/

/-- Pointwise sum of the buffered frames (`np.sum` over axis 0). -/
def sumFrames : List (List Nat) → List Nat
  | [] => []
  | [f] => f
  | f :: fs => List.zipWith (· + ·) f (sumFrames fs)

/-- `np.mean(bufs, axis=0).astype(np.uint8)`: pointwise sum, then floor
division by the number of frames (see the block comment above). -/
def averageFrames (bufs : List (List Nat)) : List Nat :=
  (sumFrames bufs).map (fun p => p / bufs.length)

/-- One iteration of the accumulation step (livestream.py lines 167-171):
append the frame; if the buffer has reached `exposure_frames`, emit the
average and clear the buffer. -/
def pushFrame (exp : Nat) (buf : List (List Nat)) (frame : List Nat) :
    List (List Nat) × Option (List Nat) :=
  let buf2 := buf ++ [frame]
  if exp ≤ buf2.length then ([], some (averageFrames buf2))
  else (buf2, none)

/-- Push a sequence of decoded frames through the accumulator, collecting
the emitted averaged frames in order. -/
def pushSeq (exp : Nat) (buf : List (List Nat)) :
    List (List Nat) → List (List Nat) × List (List Nat)
  | [] => (buf, [])
  | f :: fs =>
    match pushFrame exp buf f with
    | (b2, none) => pushSeq exp b2 fs
    | (b2, some out) =>
      let r := pushSeq exp b2 fs
      (r.1, out :: r.2)

/-! ### Streaming controller (livestream.py) -/

/-- The mutable state of `Agfa35CameraStreamer` that the claims are about:
the `streaming` flag, whether the serial port is open, and the exposure
configuration and buffer. -/
structure LiveState where
  streaming : Bool
  portOpen : Bool
  exposure_frames : Nat
  exposure_buffer : List (List Nat)
  deriving Repr, DecidableEq

/-- `stop_stream` (livestream.py lines 139-143): clears the flag (the GUI
button updates are outside the model). -/
def stop_stream (s : LiveState) : LiveState :=
  { s with streaming := false }

/-- `update_exposure` (livestream.py lines 203-205): installs whatever the
spinbox variable holds and clears the buffer.  There is no validation. -/
def update_exposure (s : LiveState) (n : Nat) : LiveState :=
  { s with exposure_frames := n, exposure_buffer := [] }

/-- What the background `stream_loop` thread observes at one iteration:
a serial line arrives, or `stop_stream` ran on the UI thread before the
`while self.streaming` check, or the serial read raises (the `except`
branch). -/
inductive StreamEvent where
  | recv (line : List Char)
  | stop
  | fail
  deriving Repr, DecidableEq

/-- `stream_loop` (livestream.py lines 145-177) over a finite schedule of
events.  On `recv`, the line is decoded and accumulated (lines 151-172).
On `stop`, the flag was cleared externally and the `while` check exits the
loop, leaving later events unprocessed.  On `fail`, the `except` branch
prints and `break`s: it does not touch `streaming` and does not close the
port. -/
def stream_loop (s : LiveState) : List StreamEvent → LiveState
  | [] => s
  | e :: es =>
    if s.streaming then
      match e with
      | .stop => stream_loop { s with streaming := false } es
      | .fail => s
      | .recv l =>
        match stream_decode 35 l with
        | none => stream_loop s es
        | some px =>
          let r := pushFrame s.exposure_frames s.exposure_buffer px
          stream_loop { s with exposure_buffer := r.1 } es
    else s

/-- `run` (livestream.py lines 207-210): after the GUI main loop returns,
close the serial port if it is open.  Either way the port ends closed. -/
def appExit (s : LiveState) : LiveState :=
  { s with portOpen := false }

/-! ### Batch download (GetImages.py) -/

/-- The loop guard `line.startswith("IMAGE,") and line.endswith(",IMAGE")`
(GetImages.py line 195). -/
def isImageLine (cs : List Char) : Bool :=
  "IMAGE,".toList.isPrefixOf cs && ",IMAGE".toList.isSuffixOf cs

/-- Python `tok in line`: substring containment. -/
def containsTok (tok : List Char) : List Char → Bool
  | [] => tok.isEmpty
  | c :: cs => tok.isPrefixOf (c :: cs) || containsTok tok cs

/-- The session-start marker `"BEGIN"` (GetImages.py line 73). -/
def beginMarker : List Char := "BEGIN".toList

/-- The session-end marker `"END"` (GetImages.py line 203). -/
def endMarker : List Char := "END".toList

/-- `wait_for_begin` (GetImages.py lines 65-79) over the lines received
before the timeout: any line containing `BEGIN` succeeds, every other line
(including the "Ready" banner) is skipped; running out of lines is the
timeout, returning `False`. -/
def wait_for_begin : List (List Char) → Bool
  | [] => false
  | l :: ls => if containsTok beginMarker l then true else wait_for_begin ls

/-- The record-processing loop of `download_images` (GetImages.py lines
191-207), from frame counter `i` over the remaining serial lines.  Returns
the `(index, pixels)` persistence-sink calls made (each `save_image`) and
the lines left unread when the loop exits.  The `while` guard
`image_count < max_images` is checked before each read; a non-IMAGE line
containing `END` breaks; rejected records do not advance the counter. -/
def download_images (mI maxv count : Nat) :
    Nat → List (List Char) → List (Nat × List Nat) × List (List Char)
  | _, [] => ([], [])
  | i, l :: rest =>
    if i < mI then
      if isImageLine l then
        match parse_image_data maxv count l with
        | some px =>
          let r := download_images mI maxv count (i + 1) rest
          ((i, px) :: r.1, r.2)
        | none => download_images mI maxv count i rest
      else if containsTok endMarker l then ([], rest)
      else download_images mI maxv count i rest
    else ([], l :: rest)

/-- Lines of a prefix of the stream that are accepted and persisted:
IMAGE-framed and successfully parsed. -/
def acceptedCount (maxv count : Nat) (ls : List (List Char)) : Nat :=
  (ls.filter (fun l => isImageLine l && (parse_image_data maxv count l).isSome)).length

end LofiCamera

namespace LofiCamera

example : pyInt " 256 ".toList = some 256 := by decide
example : pyInt "-5".toList = some (-5) := by decide
example : pyInt "x".toList = none := by decide
example : pyInt "".toList = none := by decide
example : splitComma "a,b".toList = ["a".toList, "b".toList] := by decide
example : splitComma "".toList = [[]] := by decide
example : splitComma "1,,2".toList = ["1".toList, [], "2".toList] := by decide
example : parse_image_data 65535 2 "IMAGE,1,70000,IMAGE".toList = some [1, 65535] := by decide
example : parse_image_data 65535 2 "IMAGE,1,x,IMAGE".toList = none := by decide
example : parse_image_data 65535 2 "IMAGE,1,,2,IMAGE".toList = some [1, 2] := by decide
example : stream_decode 2 "STREAM,256,512,STREAM".toList = some [1, 2] := by decide
example : stream_decode 2 "STREAM,1,x,STREAM".toList = none := by decide
example : stream_decode 2 "STREAM,1,,2,STREAM".toList = none := by decide

/-! ### Tokenisation lemmas -/

theorem splitComma_append (t r : List Char) (h : ',' ∉ t) :
    splitComma (t ++ ',' :: r) = t :: splitComma r := by
  induction t with
  | nil => simp [splitComma]
  | cons c t ih =>
    have hc : ¬c = ',' := fun e => h (by simp [e])
    have ht : ',' ∉ t := fun m => h (List.mem_cons_of_mem _ m)
    have hrec := ih ht
    simp only [List.cons_append, splitComma, if_neg hc, List.append_eq, hrec]

theorem splitComma_of_no_comma (t : List Char) (h : ',' ∉ t) :
    splitComma t = [t] := by
  induction t with
  | nil => rfl
  | cons c t ih =>
    have hc : ¬c = ',' := fun e => h (by simp [e])
    have ht : ',' ∉ t := fun m => h (List.mem_cons_of_mem _ m)
    simp only [splitComma, if_neg hc, ih ht]

theorem splitComma_joinComma : ∀ ts : List (List Char), ts ≠ [] →
    (∀ t ∈ ts, ',' ∉ t) → splitComma (joinComma ts) = ts := by
  intro ts
  induction ts with
  | nil => intro h; exact absurd rfl h
  | cons t ts ih =>
    intro _ hall
    cases ts with
    | nil => simpa [joinComma] using splitComma_of_no_comma t (hall t (by simp))
    | cons t2 ts2 =>
      have hj : joinComma (t :: t2 :: ts2) = t ++ ',' :: joinComma (t2 :: ts2) := rfl
      rw [hj, splitComma_append t _ (hall t (by simp)),
        ih (by simp) (fun u hu => hall u (by simp [hu]))]

theorem digitsVal_digits {cs : List Char} {n : Nat} (h : digitsVal cs = some n) :
    ∀ c ∈ cs, c.isDigit := by
  unfold digitsVal at h
  split at h
  · rename_i hcond
    simp only [Bool.and_eq_true, List.all_eq_true] at hcond
    exact fun c hc => hcond.2 c hc
  · exact absurd h (by simp)

theorem pyIntCore_no_comma {cs : List Char} {v : Int}
    (hv : pyIntCore cs = some v) : ',' ∉ cs := by
  intro hc
  cases cs with
  | nil => simp at hc
  | cons a rest =>
    simp only [pyIntCore] at hv
    by_cases h1 : a = '+'
    · rw [if_pos h1] at hv
      obtain ⟨n, hn, -⟩ := Option.map_eq_some'.mp hv
      rcases List.mem_cons.mp hc with h | h
      · exact absurd (h.trans h1) (by decide)
      · exact absurd (digitsVal_digits hn ',' h) (by decide)
    · rw [if_neg h1] at hv
      by_cases h2 : a = '-'
      · rw [if_pos h2] at hv
        obtain ⟨n, hn, -⟩ := Option.map_eq_some'.mp hv
        rcases List.mem_cons.mp hc with h | h
        · exact absurd (h.trans h2) (by decide)
        · exact absurd (digitsVal_digits hn ',' h) (by decide)
      · rw [if_neg h2] at hv
        obtain ⟨n, hn, -⟩ := Option.map_eq_some'.mp hv
        exact absurd (digitsVal_digits hn ',' hc) (by decide)

theorem mem_pyStrip {c : Char} {cs : List Char} (h : c ∈ cs) :
    c ∈ pyStrip cs ∨ isSpaceCh c := by
  by_cases hs : isSpaceCh c
  · exact Or.inr hs
  left
  unfold pyStrip
  have h1 : c ∈ cs.dropWhile isSpaceCh := by
    rw [← List.takeWhile_append_dropWhile isSpaceCh cs] at h
    rcases List.mem_append.mp h with h2 | h2
    · exact absurd (List.mem_takeWhile_imp h2) (by simpa using hs)
    · exact h2
  have h2 : c ∈ (cs.dropWhile isSpaceCh).reverse := List.mem_reverse.mpr h1
  have h3 : c ∈ (cs.dropWhile isSpaceCh).reverse.dropWhile isSpaceCh := by
    rw [← List.takeWhile_append_dropWhile isSpaceCh
      (cs.dropWhile isSpaceCh).reverse] at h2
    rcases List.mem_append.mp h2 with h4 | h4
    · exact absurd (List.mem_takeWhile_imp h4) (by simpa using hs)
    · exact h4
  exact List.mem_reverse.mpr h3

theorem pyInt_no_comma {cs : List Char} {v : Int} (h : pyInt cs = some v) :
    ',' ∉ cs := by
  intro hc
  rcases mem_pyStrip hc with h1 | h1
  · exact pyIntCore_no_comma h h1
  · exact absurd h1 (by decide)

theorem pyInt_strip_ne {cs : List Char} {v : Int} (h : pyInt cs = some v) :
    (pyStrip cs).isEmpty = false := by
  cases hs : pyStrip cs with
  | nil =>
    unfold pyInt at h
    rw [hs] at h
    exact absurd h (by simp [pyIntCore])
  | cons a l => rfl

/-! ### Decoding a well-formed record (claim C1) -/

theorem map_pyInt_forall {toks : List (List Char)} {vals : List Int}
    (h : toks.map pyInt = vals.map some) :
    ∀ t ∈ toks, ∃ v, pyInt t = some v := by
  induction toks generalizing vals with
  | nil => intro t ht; simp at ht
  | cons t ts ih =>
    cases vals with
    | nil => simp at h
    | cons v vs =>
      simp only [List.map_cons, List.cons.injEq] at h
      intro u hu
      rcases List.mem_cons.mp hu with rfl | hmem
      · exact ⟨v, h.1⟩
      · exact ih h.2 u hmem

theorem parseTokens_all_valid (f : Int → Nat) :
    ∀ (toks : List (List Char)) (vals : List Int),
      toks.map pyInt = vals.map some →
      parseTokens f toks = some (vals.map f) := by
  intro toks
  induction toks with
  | nil =>
    intro vals h
    cases vals with
    | nil => rfl
    | cons v vs => simp at h
  | cons t ts ih =>
    intro vals h
    cases vals with
    | nil => simp at h
    | cons v vs =>
      simp only [List.map_cons, List.cons.injEq] at h
      obtain ⟨h1, h2⟩ := h
      have hne := pyInt_strip_ne h1
      have hcore : pyIntCore (pyStrip t) = some v := h1
      simp only [parseTokens, hne, hcore, ih vs h2, Bool.false_eq_true,
        if_false, Option.map_some', List.map_cons]

theorem parseTokensSkip_all_valid (f : Int → Nat) :
    ∀ (toks : List (List Char)) (vals : List Int),
      toks.map pyInt = vals.map some →
      parseTokensSkip f toks = vals.map f := by
  intro toks
  induction toks with
  | nil =>
    intro vals h
    cases vals with
    | nil => rfl
    | cons v vs => simp at h
  | cons t ts ih =>
    intro vals h
    cases vals with
    | nil => simp at h
    | cons v vs =>
      simp only [List.map_cons, List.cons.injEq] at h
      obtain ⟨h1, h2⟩ := h
      have hne := pyInt_strip_ne h1
      have hcore : pyIntCore (pyStrip t) = some v := h1
      simp only [parseTokensSkip, hne, hcore, ih vs h2, Bool.false_eq_true,
        if_false, List.map_cons]

theorem dropLastN_append {s : List Char} (mid : List Char) {n : Nat}
    (h : s.length = n) : dropLastN n (mid ++ s) = mid := by
  unfold dropLastN
  rw [List.reverse_append, List.drop_left' (by simp [h]), List.reverse_reverse]

theorem streamFields_streamLine {toks : List (List Char)} (hne : toks ≠ [])
    (hnc : ∀ t ∈ toks, ',' ∉ t) : streamFields (streamLine toks) = toks := by
  unfold streamFields streamLine
  rw [List.append_assoc, List.drop_left' (by rfl), dropLastN_append _ (by rfl),
    splitComma_joinComma toks hne hnc]

theorem imageFields_imageLine {toks : List (List Char)} (hne : toks ≠ [])
    (hnc : ∀ t ∈ toks, ',' ∉ t) : imageFields (imageLine toks) = toks := by
  unfold imageFields imageLine
  rw [List.append_assoc, List.drop_left' (by rfl), dropLastN_append _ (by rfl),
    splitComma_joinComma toks hne hnc]

theorem streamLine_framed (toks : List (List Char)) :
    ("STREAM,".toList.isPrefixOf (streamLine toks)
      && ",STREAM".toList.isSuffixOf (streamLine toks)) = true := by
  unfold streamLine
  rw [Bool.and_eq_true]
  refine ⟨?_, ?_⟩
  · rw [List.isPrefixOf_iff_prefix, List.append_assoc]
    exact List.prefix_append _ _
  · rw [List.isSuffixOf_iff_suffix]
    exact List.suffix_append _ _

theorem imageLine_framed (toks : List (List Char)) :
    ("IMAGE,".toList.isPrefixOf (imageLine toks)
      && ",IMAGE".toList.isSuffixOf (imageLine toks)) = true := by
  unfold imageLine
  rw [Bool.and_eq_true]
  refine ⟨?_, ?_⟩
  · rw [List.isPrefixOf_iff_prefix, List.append_assoc]
    exact List.prefix_append _ _
  · rw [List.isSuffixOf_iff_suffix]
    exact List.suffix_append _ _

theorem reshapeRows_getD (h w : Nat) (px : List Nat) (i : Nat)
    (hi : i < h * w) (hw : 0 < w) :
    ((reshapeRows h w px).getD (i / w) []).getD (i % w) 0 = px.getD i 0 := by
  have hr : i / w < h := Nat.div_lt_of_lt_mul (by rwa [Nat.mul_comm] at hi)
  have hidx : i / w * w + i % w = i := by
    rw [Nat.mul_comm]; exact Nat.div_add_mod i w
  have hrow : (reshapeRows h w px).getD (i / w) [] = (px.drop (i / w * w)).take w := by
    unfold reshapeRows
    simp [List.getD, List.get?_eq_getElem?, List.getElem?_map,
      List.getElem?_range, hr]
  rw [hrow]
  simp [List.getD, List.get?_eq_getElem?, List.getElem?_take,
    Nat.mod_lt i hw, List.getElem?_drop, hidx]

/-- C1: a line made of the data prefix, exactly 35 integer tokens joined by
commas, and the matching suffix is accepted by both decoders: the streaming
decoder yields the 35 tokens in order, each floor-divided by 256 and
clamped (equivalently, clamped to the profile's 0..65535 raw range and then
divided), and the batch decoder yields them clamped to 0..65535; the frame
is row-major, the pixel at flat position `i` sitting at row `i / 7`,
column `i % 7` of the reshaped 5x7 image. -/
theorem c1_valid_record_decodes (toks : List (List Char)) (vals : List Int)
    (hlen : toks.length = 35)
    (hparse : toks.map pyInt = vals.map some) :
    stream_decode 35 (streamLine toks) = some (vals.map streamPix) ∧
    parse_image_data 65535 35 (imageLine toks) = some (vals.map (clampPix 65535)) ∧
    ∀ i, i < 35 →
      ((reshapeRows 5 7 (vals.map streamPix)).getD (i / 7) []).getD (i % 7) 0
        = (vals.map streamPix).getD i 0 := by
  have hvlen : vals.length = 35 := by
    have h := congrArg List.length hparse
    simp only [List.length_map] at h
    omega
  have hne : toks ≠ [] := by
    intro e; rw [e] at hlen; simp at hlen
  have hnc : ∀ t ∈ toks, ',' ∉ t := by
    intro t ht
    obtain ⟨v, hv⟩ := map_pyInt_forall hparse t ht
    exact pyInt_no_comma hv
  refine ⟨?_, ?_, ?_⟩
  · unfold stream_decode
    rw [streamLine_framed, streamFields_streamLine hne hnc]
    simp [hlen, hvlen, parseTokensSkip_all_valid streamPix toks vals hparse]
  · unfold parse_image_data
    rw [imageLine_framed, imageFields_imageLine hne hnc]
    simp [hvlen, parseTokens_all_valid (clampPix 65535) toks vals hparse]
  · intro i hi
    exact reshapeRows_getD 5 7 _ i (by omega) (by omega)

/-- Witness for C1 at a concrete line of 35 copies of the token `256`. -/
theorem c1_valid_record_decodes_witness :
    stream_decode 35 (streamLine (List.replicate 35 ("256".toList)))
      = some ((List.replicate 35 (256 : Int)).map streamPix) :=
  (c1_valid_record_decodes (List.replicate 35 ("256".toList))
    (List.replicate 35 (256 : Int)) (by decide) (by decide)).1

/-! ### Rejection of malformed records (claims C2, C10) -/

theorem pyInt_of_strip_empty {t : List Char} (h : (pyStrip t).isEmpty) :
    pyInt t = none := by
  unfold pyInt
  rw [List.isEmpty_iff.mp h]
  rfl

theorem parseTokensSkip_length (f : Int → Nat) :
    ∀ fs : List (List Char), (parseTokensSkip f fs).length = parsedCount fs := by
  intro fs
  induction fs with
  | nil => rfl
  | cons t ts ih =>
    by_cases he : (pyStrip t).isEmpty
    · have hnone : pyInt t = none := pyInt_of_strip_empty he
      simpa [parseTokensSkip, he, parsedCount, List.filterMap_cons, hnone]
        using ih
    · cases hv : pyIntCore (pyStrip t) with
      | none =>
        have hnone : pyInt t = none := hv
        simp [parseTokensSkip, he, hv, parsedCount, List.filterMap_cons, hnone, ih]
      | some v =>
        have hsome : pyInt t = some v := hv
        simp [parseTokensSkip, he, hv, parsedCount, List.filterMap_cons, hsome, ih]

theorem parseTokens_none_of_bad (f : Int → Nat) :
    ∀ fs : List (List Char), fieldsBad fs → parseTokens f fs = none := by
  intro fs
  induction fs with
  | nil =>
    intro h
    obtain ⟨t, ht, -⟩ := h
    simp at ht
  | cons t ts ih =>
    intro h
    obtain ⟨u, hu, hne, hnone⟩ := h
    rcases List.mem_cons.mp hu with rfl | hmem
    · have he : (pyStrip u).isEmpty = false := by simpa using hne
      have hcore : pyIntCore (pyStrip u) = none := hnone
      simp [parseTokens, he, hcore]
    · by_cases he : (pyStrip t).isEmpty
      · simp [parseTokens, he, ih ⟨u, hmem, hne, hnone⟩]
      · cases hv : pyIntCore (pyStrip t) with
        | none => simp [parseTokens, he, hv]
        | some v => simp [parseTokens, he, hv, ih ⟨u, hmem, hne, hnone⟩]

theorem parseTokens_of_good (f : Int → Nat) :
    ∀ fs : List (List Char), ¬fieldsBad fs →
      parseTokens f fs = some ((fs.filterMap pyInt).map f) := by
  intro fs
  induction fs with
  | nil => intro _; rfl
  | cons t ts ih =>
    intro h
    have hts : ¬fieldsBad ts := by
      intro hb
      obtain ⟨u, hu, p⟩ := hb
      exact h ⟨u, List.mem_cons_of_mem _ hu, p⟩
    by_cases he : (pyStrip t).isEmpty
    · have hnone : pyInt t = none := pyInt_of_strip_empty he
      simp [parseTokens, he, ih hts, List.filterMap_cons, hnone]
    · cases hv : pyIntCore (pyStrip t) with
      | none =>
        exact absurd ⟨t, List.mem_cons_self t ts, by simpa using he, hv⟩ h
      | some v =>
        have hsome : pyInt t = some v := hv
        simp [parseTokens, he, hv, ih hts, List.filterMap_cons, hsome]

theorem parseTokens_some_length {f : Int → Nat} {fs : List (List Char)}
    {l : List Nat} (h : parseTokens f fs = some l) :
    l.length = parsedCount fs := by
  by_cases hb : fieldsBad fs
  · rw [parseTokens_none_of_bad f fs hb] at h
    cases h
  · rw [parseTokens_of_good f fs hb] at h
    injection h with h
    rw [← h]
    simp [parsedCount]

theorem parsedCount_lt_of_bad :
    ∀ fs : List (List Char), fieldsBad fs → parsedCount fs < fs.length := by
  intro fs
  induction fs with
  | nil =>
    intro h
    obtain ⟨t, ht, -⟩ := h
    simp at ht
  | cons t ts ih =>
    intro h
    obtain ⟨u, hu, hne, hnone⟩ := h
    have hbound : parsedCount ts ≤ ts.length := by
      simpa [parsedCount] using List.length_filterMap_le pyInt ts
    rcases List.mem_cons.mp hu with rfl | hmem
    · simp only [parsedCount, List.filterMap_cons, hnone, List.length_cons]
      have : (ts.filterMap pyInt).length = parsedCount ts := rfl
      omega
    · have hlt := ih ⟨u, hmem, hne, hnone⟩
      cases hv : pyInt t with
      | none =>
        simp only [parsedCount, List.filterMap_cons, hv, List.length_cons]
        have : (ts.filterMap pyInt).length = parsedCount ts := rfl
        omega
      | some v =>
        simp only [parsedCount, List.filterMap_cons, hv, List.length_cons]
        have : (ts.filterMap pyInt).length = parsedCount ts := rfl
        omega

/-- C2: a line whose parsed token count differs from `pixel_count`, or that
contains a non-empty token that is not an integer, is fully rejected by the
batch decoder and produces no frame in the streaming decoder — never a
partial frame (both decoders are total functions: no exception escapes). -/
theorem c2_malformed_rejected (maxv count : Nat) (cs : List Char) :
    ((parsedCount (imageFields cs) ≠ count ∨ fieldsBad (imageFields cs)) →
      parse_image_data maxv count cs = none) ∧
    ((parsedCount (streamFields cs) ≠ count ∨ fieldsBad (streamFields cs)) →
      stream_decode count cs = none) := by
  constructor
  · intro h
    unfold parse_image_data
    by_cases hframe :
        ("IMAGE,".toList.isPrefixOf cs && ",IMAGE".toList.isSuffixOf cs) = true
    · rw [hframe]
      rcases h with hcnt | hbad
      · cases hp : parseTokens (clampPix maxv) (imageFields cs) with
        | none => simp
        | some l =>
          have hl := parseTokens_some_length hp
          simp [hl, hcnt]
      · rw [parseTokens_none_of_bad _ _ hbad]
        simp
    · rw [if_neg hframe]
  · intro h
    unfold stream_decode
    by_cases hframe :
        ("STREAM,".toList.isPrefixOf cs && ",STREAM".toList.isSuffixOf cs) = true
    · rw [hframe]
      by_cases hraw : (streamFields cs).length = count
      · by_cases hpc : parsedCount (streamFields cs) = count
        · rcases h with hcnt | hbad
          · exact absurd hpc hcnt
          · have hlt := parsedCount_lt_of_bad _ hbad
            omega
        · simp [hraw, parseTokensSkip_length, hpc]
      · simp [hraw]
    · rw [if_neg hframe]

/-- Witness for C2: a record with a non-integer token is rejected by the
batch decoder, and a record with too few tokens produces nothing in the
streaming decoder. -/
theorem c2_malformed_rejected_witness :
    parse_image_data 65535 35 ("IMAGE,1,x,IMAGE".toList) = none ∧
    stream_decode 35 ("STREAM,1,x,STREAM".toList) = none :=
  ⟨(c2_malformed_rejected 65535 35 ("IMAGE,1,x,IMAGE".toList)).1
      (Or.inr (by decide)),
   (c2_malformed_rejected 65535 35 ("STREAM,1,x,STREAM".toList)).2
      (Or.inl (by decide))⟩

/-- C10: in the batch decoder empty comma-separated fields are skipped
before the pixel-count check: an IMAGE-framed line whose non-empty fields
parse to exactly `count` integers is accepted, regardless of the raw
comma-split field count (e.g. a doubled comma). -/
theorem c10_empty_fields_skipped (maxv count : Nat) (cs : List Char)
    (hframe :
      ("IMAGE,".toList.isPrefixOf cs && ",IMAGE".toList.isSuffixOf cs) = true)
    (hgood : ¬fieldsBad (imageFields cs))
    (hcount : parsedCount (imageFields cs) = count) :
    parse_image_data maxv count cs
      = some (((imageFields cs).filterMap pyInt).map (clampPix maxv)) := by
  unfold parse_image_data
  rw [hframe, parseTokens_of_good _ _ hgood]
  have hlen : ((imageFields cs).filterMap pyInt).length = count := hcount
  simp [hlen]

/-- Witness for C10: `IMAGE,1,,2,IMAGE` has three raw fields (more than the
pixel count 2) yet decodes to the two-pixel frame `[1, 2]`. -/
theorem c10_empty_fields_skipped_witness :
    (imageFields ("IMAGE,1,,2,IMAGE".toList)).length = 3 ∧
    parse_image_data 65535 2 ("IMAGE,1,,2,IMAGE".toList) = some [1, 2] := by
  refine ⟨by decide, ?_⟩
  rw [c10_empty_fields_skipped 65535 2 ("IMAGE,1,,2,IMAGE".toList)
    (by decide) (by decide) (by decide)]
  decide

/-! ### Exposure accumulation (claims C3, C4) -/

theorem pushFrame_no_flush {k : Nat} {buf : List (List Nat)} {f : List Nat}
    (h : buf.length + 1 < k) : pushFrame k buf f = (buf ++ [f], none) := by
  unfold pushFrame
  rw [if_neg (by simp; omega)]

theorem pushFrame_flush {k : Nat} {buf : List (List Nat)} {f : List Nat}
    (h : k ≤ buf.length + 1) :
    pushFrame k buf f = ([], some (averageFrames (buf ++ [f]))) := by
  unfold pushFrame
  rw [if_pos (by simp; omega)]

theorem pushSeq_fill (k : Nat) :
    ∀ (fs buf : List (List Nat)), buf.length + fs.length < k →
      pushSeq k buf fs = (buf ++ fs, []) := by
  intro fs
  induction fs with
  | nil => intro buf h; simp [pushSeq]
  | cons f fs ih =>
    intro buf h
    simp only [List.length_cons] at h
    simp only [pushSeq, pushFrame_no_flush (by omega : buf.length + 1 < k)]
    rw [ih (buf ++ [f]) (by simp; omega)]
    simp

theorem pushSeq_append (k : Nat) :
    ∀ (xs ys buf : List (List Nat)),
      pushSeq k buf (xs ++ ys)
        = ((pushSeq k (pushSeq k buf xs).1 ys).1,
           (pushSeq k buf xs).2 ++ (pushSeq k (pushSeq k buf xs).1 ys).2) := by
  intro xs
  induction xs with
  | nil => intro ys buf; simp [pushSeq]
  | cons x xs ih =>
    intro ys buf
    rcases hp : pushFrame k buf x with ⟨b2, o⟩
    cases o with
    | none =>
      simp only [List.cons_append, pushSeq, hp, List.append_eq]
      exact ih ys b2
    | some out =>
      simp only [List.cons_append, pushSeq, hp, List.append_eq]
      rw [ih ys b2]

theorem sumFrames_len : ∀ (frames : List (List Nat)) (w : Nat), frames ≠ [] →
    (∀ f ∈ frames, f.length = w) → (sumFrames frames).length = w := by
  intro frames
  induction frames with
  | nil => intro w h; exact absurd rfl h
  | cons f fs ih =>
    intro w _ hw
    cases fs with
    | nil => simpa [sumFrames] using hw f (by simp)
    | cons f2 fs2 =>
      have h1 : f.length = w := hw f (by simp)
      have h2 : (sumFrames (f2 :: fs2)).length = w :=
        ih w (by simp) (fun u hu => hw u (List.mem_cons_of_mem _ hu))
      simp [sumFrames, h1, h2]

theorem getD_zipWith_add :
    ∀ (a b : List Nat) (i : Nat), i < a.length → i < b.length →
      (List.zipWith (· + ·) a b).getD i 0 = a.getD i 0 + b.getD i 0 := by
  intro a
  induction a with
  | nil => intro b i h; simp at h
  | cons x xs ih =>
    intro b i ha hb
    cases b with
    | nil => simp at hb
    | cons y ys =>
      cases i with
      | zero => simp
      | succ j =>
        simp only [List.zipWith_cons_cons, List.getD_cons_succ]
        exact ih ys j (by simpa using ha) (by simpa using hb)

theorem sumFrames_getD :
    ∀ (frames : List (List Nat)) (w : Nat), frames ≠ [] →
      (∀ f ∈ frames, f.length = w) → ∀ i, i < w →
      (sumFrames frames).getD i 0 = (frames.map (fun f => f.getD i 0)).sum := by
  intro frames
  induction frames with
  | nil => intro w h; exact absurd rfl h
  | cons f fs ih =>
    intro w _ hw i hi
    cases fs with
    | nil => simp [sumFrames]
    | cons f2 fs2 =>
      have h1 : i < f.length := by rw [hw f (by simp)]; exact hi
      have h2 : i < (sumFrames (f2 :: fs2)).length := by
        rw [sumFrames_len (f2 :: fs2) w (by simp)
          (fun u hu => hw u (List.mem_cons_of_mem _ hu))]
        exact hi
      have hzip := getD_zipWith_add f (sumFrames (f2 :: fs2)) i h1 h2
      have hrec := ih w (by simp)
        (fun u hu => hw u (List.mem_cons_of_mem _ hu)) i hi
      simp only [sumFrames, hzip, hrec, List.map_cons, List.sum_cons]

theorem averageFrames_getD (bufs : List (List Nat)) (i : Nat) :
    (averageFrames bufs).getD i 0 = (sumFrames bufs).getD i 0 / bufs.length := by
  unfold averageFrames
  simp only [List.getD, List.get?_eq_getElem?, List.getElem?_map]
  cases (sumFrames bufs)[i]? <;> simp

/-- C3 (amended): pushing `k - 1` frames into an empty window with exposure
count `k` emits nothing; pushing `k` frames emits exactly one averaged
frame and empties the window, and its pixel `i` is the pointwise sum
divided by `k` — the floor (truncation) of the arithmetic mean, which is
what `np.mean(...).astype(np.uint8)` computes. -/
theorem c3_exposure_floor_mean (k : Nat) (hk : 1 ≤ k)
    (frames : List (List Nat)) (hlen : frames.length = k)
    (w : Nat) (hw : ∀ f ∈ frames, f.length = w) :
    (pushSeq k [] (frames.take (k - 1))).2 = [] ∧
    pushSeq k [] frames = ([], [averageFrames frames]) ∧
    ∀ i, i < w →
      (averageFrames frames).getD i 0
        = (frames.map (fun f => f.getD i 0)).sum / k := by
  have htake : (frames.take (k - 1)).length = k - 1 := by
    simp [hlen]
  have hdrop : (frames.drop (k - 1)).length = 1 := by
    simp [hlen]; omega
  obtain ⟨g, hg⟩ := List.length_eq_one.mp hdrop
  have hsplit : frames = frames.take (k - 1) ++ [g] := by
    conv_lhs => rw [← List.take_append_drop (k - 1) frames]
    rw [hg]
  refine ⟨?_, ?_, ?_⟩
  · rw [pushSeq_fill k (frames.take (k - 1)) [] (by simp [htake]; omega)]
  · rw [hsplit, pushSeq_append,
      pushSeq_fill k (frames.take (k - 1)) [] (by simp [htake]; omega)]
    simp only [List.nil_append]
    simp only [pushSeq, pushFrame_flush (by rw [htake]; omega :
      k ≤ (frames.take (k - 1)).length + 1)]
  · intro i hi
    have hne : frames ≠ [] := by
      intro e; rw [e] at hlen; simp at hlen; omega
    rw [averageFrames_getD, hlen, sumFrames_getD frames w hne hw i hi]

/-- Counterexample to C3 as stated: exposure count 3, single-pixel frames
[1], [1], [3].  The code emits pixel 1 (truncated mean), but the rounded
arithmetic mean of 1, 1, 3 is round(5/3) = 2. -/
theorem c3_round_counterexample :
    (pushSeq 3 [] [[1], [1], [3]]).2 = [[1]] ∧
    round (((1 : ℚ) + 1 + 3) / 3) = 2 ∧ (1 : Nat) ≠ 2 := by
  refine ⟨by decide, ?_, by decide⟩
  rw [round_eq, Int.floor_eq_iff]
  constructor <;> norm_num

/-- Witness for the amended C3 at exposure count 2 with frames [[0]], [[2]]. -/
theorem c3_exposure_floor_mean_witness :
    (pushSeq 2 [] (List.take 1 [[0], [2]])).2 = [] ∧
    pushSeq 2 [] [[0], [2]] = ([], [averageFrames [[0], [2]]]) :=
  ⟨(c3_exposure_floor_mean 2 (by decide) [[0], [2]] (by decide) 1
      (by decide)).1,
   (c3_exposure_floor_mean 2 (by decide) [[0], [2]] (by decide) 1
      (by decide)).2.1⟩

/-- C4: with a validly configured exposure count (at least 1) the window
invariant is preserved: after a push the buffer is strictly shorter than
the count — reaching the count flushes exactly one averaged frame and
resets the buffer to empty — and `update_exposure` clears the buffer, so a
partial window is never carried into the next window or averaged against a
different target count. -/
theorem c4_window_invariant (k n : Nat) (buf : List (List Nat))
    (f : List Nat) (s : LiveState) (hk : 1 ≤ k) (hn : 1 ≤ n)
    (hbuf : buf.length < k) :
    (pushFrame k buf f).1.length < k ∧
    ((pushFrame k buf f).2.isSome ↔ buf.length + 1 = k) ∧
    (buf.length + 1 = k →
      pushFrame k buf f = ([], some (averageFrames (buf ++ [f])))) ∧
    (update_exposure s n).exposure_buffer.length < n := by
  by_cases h : buf.length + 1 = k
  · rw [pushFrame_flush (by omega)]
    refine ⟨by simpa using hk, by simp [h], fun _ => rfl, ?_⟩
    simp [update_exposure]; omega
  · rw [pushFrame_no_flush (by omega)]
    refine ⟨by simp; omega, by simp [h], fun hc => absurd hc h, ?_⟩
    simp [update_exposure]; omega

/-- Witness for C4 at exposure count 2, a one-frame buffer and a fresh
reconfiguration to count 1. -/
theorem c4_window_invariant_witness :
    (pushFrame 2 [[7]] [9]).1.length < 2 ∧
    ((pushFrame 2 [[7]] [9]).2.isSome ↔ 1 + 1 = 2) ∧
    (1 + 1 = 2 →
      pushFrame 2 [[7]] [9] = ([], some (averageFrames [[7], [9]]))) ∧
    (update_exposure ⟨true, true, 2, [[7]]⟩ 1).exposure_buffer.length < 1 := by
  have h := c4_window_invariant 2 1 [[7]] [9] ⟨true, true, 2, [[7]]⟩
    (by decide) (by decide) (by decide)
  simpa using h

/-! ### Batch session (claims C5, C6) -/

theorem download_images_stop {mI maxv count i : Nat} (h : mI ≤ i)
    (lines : List (List Char)) :
    download_images mI maxv count i lines = ([], lines) := by
  cases lines with
  | nil => rfl
  | cons l rest => simp [download_images, Nat.not_lt.mpr h]

theorem download_indices (mI maxv count : Nat) :
    ∀ (lines : List (List Char)) (i : Nat),
      (download_images mI maxv count i lines).1.map Prod.fst
        = List.range' i (download_images mI maxv count i lines).1.length := by
  intro lines
  induction lines with
  | nil => intro i; rfl
  | cons l rest ih =>
    intro i
    by_cases hi : i < mI
    · simp only [download_images, if_pos hi]
      cases himg : isImageLine l with
      | true =>
        rw [if_pos rfl]
        cases hp : parse_image_data maxv count l with
        | some px =>
          simp only [List.map_cons, List.length_cons, ih (i + 1),
            List.range'_succ]
        | none => exact ih i
      | false =>
        rw [if_neg (by simp [himg])]
        by_cases hend : containsTok endMarker l = true
        · simp [hend]
        · simp only [if_neg hend]
          exact ih i
    · simp [download_images, hi]

/-- C5: in a batch session the persisted frames carry indices 0, 1, 2, ...
contiguously with no gaps, whatever mixture of valid, malformed and
non-IMAGE lines arrives: rejected records never consume an index. -/
theorem c5_indices_contiguous (mI maxv count : Nat) (lines : List (List Char)) :
    (download_images mI maxv count 0 lines).1.map Prod.fst
      = List.range (download_images mI maxv count 0 lines).1.length := by
  rw [List.range_eq_range']
  exact download_indices mI maxv count lines 0

theorem download_run_append (mI maxv count : Nat) :
    ∀ (xs r : List (List Char)) (i : Nat),
      i + acceptedCount maxv count xs < mI →
      (∀ l ∈ xs, isImageLine l = false → containsTok endMarker l = false) →
      (download_images mI maxv count i (xs ++ r)).1.length
        = acceptedCount maxv count xs
          + (download_images mI maxv count
              (i + acceptedCount maxv count xs) r).1.length ∧
      (download_images mI maxv count i (xs ++ r)).2
        = (download_images mI maxv count
            (i + acceptedCount maxv count xs) r).2 := by
  intro xs
  induction xs with
  | nil =>
    intro r i _ _
    simp [acceptedCount]
  | cons l xs ih =>
    intro r i hlt hno
    have hno2 : ∀ u ∈ xs, isImageLine u = false →
        containsTok endMarker u = false :=
      fun u hu => hno u (List.mem_cons_of_mem _ hu)
    cases himg : isImageLine l with
    | true =>
      cases hp : parse_image_data maxv count l with
      | some px =>
        have hacc : acceptedCount maxv count (l :: xs)
            = acceptedCount maxv count xs + 1 := by
          simp [acceptedCount, List.filter_cons, himg, hp]
        have hi : i < mI := by rw [hacc] at hlt; omega
        have hrec := ih r (i + 1) (by rw [hacc] at hlt; omega) hno2
        have hstep : download_images mI maxv count i (l :: (xs ++ r))
            = ((i, px) :: (download_images mI maxv count (i + 1) (xs ++ r)).1,
               (download_images mI maxv count (i + 1) (xs ++ r)).2) := by
          simp [download_images, hi, himg, hp]
        rw [List.cons_append, hstep, hacc]
        have hidx : i + (acceptedCount maxv count xs + 1)
            = i + 1 + acceptedCount maxv count xs := by omega
        rw [hidx]
        obtain ⟨h1, h2⟩ := hrec
        refine ⟨?_, h2⟩
        simp only [List.length_cons]
        omega
      | none =>
        have hacc : acceptedCount maxv count (l :: xs)
            = acceptedCount maxv count xs := by
          simp [acceptedCount, List.filter_cons, himg, hp]
        have hi : i < mI := by rw [hacc] at hlt; omega
        have hrec := ih r i (by rw [hacc] at hlt; omega) hno2
        have hstep : download_images mI maxv count i (l :: (xs ++ r))
            = download_images mI maxv count i (xs ++ r) := by
          simp [download_images, hi, himg, hp]
        rw [List.cons_append, hstep, hacc]
        exact hrec
    | false =>
      have hend := hno l (by simp) himg
      have hacc : acceptedCount maxv count (l :: xs)
          = acceptedCount maxv count xs := by
        simp [acceptedCount, List.filter_cons, himg]
      have hi : i < mI := by rw [hacc] at hlt; omega
      have hrec := ih r i (by rw [hacc] at hlt; omega) hno2
      have hstep : download_images mI maxv count i (l :: (xs ++ r))
          = download_images mI maxv count i (xs ++ r) := by
        simp [download_images, hi, himg, hend]
      rw [List.cons_append, hstep, hacc]
      exact hrec

/-- C6: a batch session with `max_images = m` stops at the first of the End
marker or the `m`-th persisted image.  If `m - 1` records have been
accepted from the prefix `xs` (which contains no END line), then an
`m`-th valid IMAGE line completes the session with exactly `m` persist
calls, leaving every later line — even further valid IMAGE lines before
END — unread; an END line instead completes it with `m - 1` persist calls,
likewise leaving the rest unread. -/
theorem c6_batch_stop (m maxv count : Nat) (xs ys : List (List Char))
    (hm : 0 < m)
    (hacc : acceptedCount maxv count xs = m - 1)
    (hno : ∀ l ∈ xs, isImageLine l = false → containsTok endMarker l = false) :
    (∀ g, isImageLine g = true → (parse_image_data maxv count g).isSome →
      (download_images m maxv count 0 (xs ++ g :: ys)).1.length = m ∧
      (download_images m maxv count 0 (xs ++ g :: ys)).2 = ys) ∧
    (∀ e, isImageLine e = false → containsTok endMarker e = true →
      (download_images m maxv count 0 (xs ++ e :: ys)).1.length = m - 1 ∧
      (download_images m maxv count 0 (xs ++ e :: ys)).2 = ys) := by
  have hm1 : m - 1 < m := by omega
  constructor
  · intro g hg hps
    obtain ⟨px, hpx⟩ := Option.isSome_iff_exists.mp hps
    have hrun := download_run_append m maxv count xs (g :: ys) 0
      (by omega) hno
    rw [hacc] at hrun
    simp only [Nat.zero_add] at hrun
    have hm2 : m - 1 + 1 = m := by omega
    have hstep : download_images m maxv count (m - 1) (g :: ys)
        = ((m - 1, px) :: (download_images m maxv count m ys).1,
           (download_images m maxv count m ys).2) := by
      simp [download_images, hm1, hg, hpx, hm2]
    have hrest : download_images m maxv count m ys = ([], ys) :=
      download_images_stop (Nat.le_refl m) ys
    rw [hstep, hrest] at hrun
    obtain ⟨h1, h2⟩ := hrun
    refine ⟨?_, h2⟩
    simp only [List.length_cons, List.length_nil] at h1
    omega
  · intro e he hce
    have hrun := download_run_append m maxv count xs (e :: ys) 0
      (by omega) hno
    rw [hacc] at hrun
    simp only [Nat.zero_add] at hrun
    have hstep : download_images m maxv count (m - 1) (e :: ys) = ([], ys) := by
      simp [download_images, hm1, he, hce]
    rw [hstep] at hrun
    obtain ⟨h1, h2⟩ := hrun
    refine ⟨?_, h2⟩
    simp only [List.length_nil] at h1
    omega

/-- Witness for C6: with `max_images = 1` and an empty prefix, one valid
IMAGE line completes the session with one persist call and leaves a later
valid IMAGE line unread; an END line completes it with zero persist calls. -/
theorem c6_batch_stop_witness :
    ((download_images 1 255 2 0
        (([] : List (List Char)) ++ ("IMAGE,1,2,IMAGE".toList) ::
          [("IMAGE,3,4,IMAGE".toList)])).1.length = 1 ∧
      (download_images 1 255 2 0
        (([] : List (List Char)) ++ ("IMAGE,1,2,IMAGE".toList) ::
          [("IMAGE,3,4,IMAGE".toList)])).2 = [("IMAGE,3,4,IMAGE".toList)]) ∧
    ((download_images 1 255 2 0
        (([] : List (List Char)) ++ ("END".toList) ::
          [("IMAGE,3,4,IMAGE".toList)])).1.length = 0 ∧
      (download_images 1 255 2 0
        (([] : List (List Char)) ++ ("END".toList) ::
          [("IMAGE,3,4,IMAGE".toList)])).2 = [("IMAGE,3,4,IMAGE".toList)]) := by
  have h := c6_batch_stop 1 255 2 [] [("IMAGE,3,4,IMAGE".toList)]
    (by decide) (by decide) (by intro l hl; simp at hl)
  exact ⟨h.1 ("IMAGE,1,2,IMAGE".toList) (by decide) (by decide),
         h.2 ("END".toList) (by decide) (by decide)⟩

/-! ### Session start marker (claim C7) -/

/-- C7: while waiting for the session to start, any received line that
contains the substring `BEGIN` anywhere — after any run of lines that do
not contain it, which are discarded without error — makes `wait_for_begin`
succeed.  The match is containment, not whole-line equality. -/
theorem c7_begin_substring (pre post : List (List Char)) (l : List Char)
    (hl : containsTok beginMarker l = true) :
    (∀ p ∈ pre, containsTok beginMarker p = false) →
    wait_for_begin (pre ++ l :: post) = true := by
  induction pre with
  | nil =>
    intro _
    simp [wait_for_begin, hl]
  | cons p ps ih =>
    intro hpre
    have hp : containsTok beginMarker p = false := hpre p (by simp)
    simp only [List.cons_append, wait_for_begin, hp, Bool.false_eq_true,
      if_false]
    exact ih (fun u hu => hpre u (by simp [hu]))

/-- Witness for C7: the banner line is skipped and `Ready BEGIN now` — a
proper superstring of `BEGIN` — starts the session. -/
theorem c7_begin_substring_witness :
    wait_for_begin ([("Agfa35 Camera V2 Ready".toList)] ++
      ("Ready BEGIN now".toList) :: []) = true ∧
    ("Ready BEGIN now".toList) ≠ beginMarker :=
  ⟨c7_begin_substring [("Agfa35 Camera V2 Ready".toList)] []
      ("Ready BEGIN now".toList) (by decide) (by decide),
   by decide⟩

/-! ### Controller exit paths and configuration (claims C8, C9) -/

theorem stream_loop_not_streaming {s : LiveState} (h : s.streaming = false) :
    ∀ evs, stream_loop s evs = s := by
  intro evs
  cases evs with
  | nil => rfl
  | cons e es => simp [stream_loop, h]

/-- Counterexample to C8 as stated: when the loop terminates on a serial
error (the `except` branch of `stream_loop`), the `streaming` flag is left
`true` and the serial port is left open. -/
theorem c8_error_exit_counterexample :
    (stream_loop ⟨true, true, 1, []⟩ [StreamEvent.fail]).streaming = true ∧
    (stream_loop ⟨true, true, 1, []⟩ [StreamEvent.fail]).portOpen = true := by
  exact ⟨rfl, rfl⟩

/-- C8 (amended): an external stop leaves the streaming flag false, and the
transport ends closed only because `run` closes it at application exit;
when the streaming loop terminates on a fatal error it performs no cleanup
of its own — the state is returned untouched, so the streaming flag stays
true and the port stays open until application exit. -/
theorem c8_exit_paths (s : LiveState) (evs : List StreamEvent) :
    (stream_loop (stop_stream s) evs).streaming = false ∧
    (appExit (stream_loop s evs)).portOpen = false ∧
    (s.streaming = true → stream_loop s (StreamEvent.fail :: evs) = s) := by
  refine ⟨?_, rfl, ?_⟩
  · rw [stream_loop_not_streaming rfl evs]
    rfl
  · intro h
    simp [stream_loop, h]

/-- Witness for the amended C8 at a concrete streaming state. -/
theorem c8_exit_paths_witness :
    (stream_loop (stop_stream ⟨true, true, 1, []⟩) []).streaming = false ∧
    (appExit (stream_loop ⟨true, true, 1, []⟩ [])).portOpen = false ∧
    stream_loop ⟨true, true, 1, []⟩ [StreamEvent.fail] = ⟨true, true, 1, []⟩ := by
  have h := c8_exit_paths ⟨true, true, 1, []⟩ []
  exact ⟨h.1, h.2.1, h.2.2 rfl⟩

/-- Counterexample to C9 as stated: the invalid exposure count 0 (outside
1..max_exposure_frames) is installed by `update_exposure`, not rejected. -/
theorem c9_no_validation_counterexample :
    (update_exposure ⟨true, true, 1, []⟩ 0).exposure_frames = 0 ∧
    ¬1 ≤ (update_exposure ⟨true, true, 1, []⟩ 0).exposure_frames := by
  exact ⟨rfl, by decide⟩

/-- C9 (amended): `update_exposure` installs whatever value the spinbox
variable holds, for every `n` including out-of-range ones, clearing the
window; no configuration-time validation exists (the GUI spinbox range is
only advisory, and the shape dimensions are fixed constants that are never
configured). -/
theorem c9_update_exposure_installs (s : LiveState) (n : Nat) :
    (update_exposure s n).exposure_frames = n ∧
    (update_exposure s n).exposure_buffer = [] ∧
    (update_exposure s n).streaming = s.streaming ∧
    (update_exposure s n).portOpen = s.portOpen :=
  ⟨rfl, rfl, rfl, rfl⟩

end LofiCamera
